import Mathlib

/-!
Verification of the chunk-building core of `chunkit` (`src/main.go`).

The embedding models timestamps as natural numbers counting seconds
(Go `time.Time` at second granularity; every timestamp appearing in the
claims is a whole second).  A Google-calendar event is reduced to the
fields the core reads: the two `EventDateTime.DateTime` strings (modelled
as `Option Nat`, `none` standing for the empty string of an all-day
event), the summary, the attendee list (`Self`, `ResponseStatus`) and
`Creator.Self`.

`Chunkify date items` (main.go:87-154) is embedded as a left fold over the
items; the loop state (`lo`, the emitted chunks, the `intersect` pointer)
becomes an explicit `BuildState`.  The emitted chunk list is kept in
reverse order (newest first) while folding — Go appends at the end and
mutates `chunks[i-1]`, which in reverse order is the element right under
the head — and is reversed once at the end.  Since a truncated chunk is
never truncated again and only its `notes` field is ever read through
`intersect`, the `intersect` pointer is modelled as a value snapshot of
the truncated chunk.
-/

structure Attendee where
  self : Bool
  responseStatus : String
deriving DecidableEq

/-- The fields of `calendar.Event` that `Chunkify` reads.  `start`/`end`
are the parsed `Start.DateTime` / `End.DateTime` (`none` = empty string,
i.e. an all-day event). -/
structure Event where
  start : Option Nat
  «end» : Option Nat
  summary : String
  attendees : List Attendee
  creatorSelf : Bool
deriving DecidableEq

/-- Output chunk (main.go:80-85): embedded event reference, start, end,
notes. -/
structure Chunk where
  event : Option Event
  start : Nat
  «end» : Nat
  notes : String
deriving DecidableEq

/-- main.go:22 — 9 AM. -/
def startOfDay : Nat := 9

/-- main.go:23 — 5 PM. -/
def endOfDay : Nat := 17

/-- main.go:156-160: `t.Round(15 * time.Minute)` on a nonnegative time,
in seconds — nearest multiple of 900, halves (450 s = 7 min 30 s) rounding
up. -/
def roundToNearest15 (t : Nat) : Nat := (t + 450) / 900 * 900

/-- The state of `Chunkify`'s loop: the low-water mark `lo`, the chunks
emitted so far in reverse order of emission, and the `intersect`
pointer. -/
structure BuildState where
  lo : Nat
  rev : List Chunk
  intersect : Option Chunk
deriving DecidableEq

/-- One normalized relevant occurrence: the (attendee-synthesized) event
together with its rounded start and end. -/
structure Triple where
  ev : Event
  rs : Nat
  re : Nat
deriving DecidableEq

/-- Notes a freshly emitted gap chunk ends up with (main.go:125-128 and
147-150): `""`, overwritten with `intersect.notes` when `intersect` is
set. -/
def gapNotes : Option Chunk → String
  | some c => c.notes
  | none => ""

/-- main.go:132 — the chunk emitted for a relevant event occurrence. -/
def eventChunk (tr : Triple) : Chunk :=
  Chunk.mk (some tr.ev) tr.rs tr.re tr.ev.summary

/-- main.go:123-129 — the chunk list after the optional pre-event gap
chunk has been emitted (`start.After(lo)`). -/
def gapped (st : BuildState) (rs : Nat) : List Chunk :=
  if st.lo < rs then Chunk.mk none st.lo rs (gapNotes st.intersect) :: st.rev
  else st.rev

/-- main.go:132-141 — append the event chunk, truncate the immediately
preceding chunk when the event starts strictly before its end
(`i > 0 && start.Before(chunks[i-1].end)`), recording it in `intersect`,
and advance `lo` to the event chunk's end. -/
def placeEvent (intr : Option Chunk) (tr : Triple) : List Chunk → BuildState
  | [] => BuildState.mk tr.re [eventChunk tr] intr
  | p :: rest =>
    if tr.rs < p.«end» then
      BuildState.mk tr.re
        (eventChunk tr :: Chunk.mk p.event p.start tr.rs p.notes :: rest)
        (some (Chunk.mk p.event p.start tr.rs p.notes))
    else BuildState.mk tr.re (eventChunk tr :: p :: rest) intr

/-- The body of the inner attendee loop for one relevant occurrence
(main.go:120-141). -/
def stepTriple (st : BuildState) (tr : Triple) : BuildState :=
  placeEvent st.intersect tr (gapped st tr.rs)

/-- main.go:107-112 — a timed event with no attendees created by self
gains one synthetic self attendee (zero-valued `ResponseStatus`, i.e.
`""`).  In Go this writes through the shared `*calendar.Event`. -/
def normAttendees (e : Event) : Event :=
  if e.attendees = [] ∧ e.creatorSelf = true then
    Event.mk e.start e.«end» e.summary [Attendee.mk true ""] e.creatorSelf
  else e

/-- main.go:114-142 — one attendee-loop iteration: skip unless a self,
non-declined attendee, otherwise process the rounded occurrence. -/
def stepAttendee (e : Event) (st : BuildState) (a : Attendee) : BuildState :=
  if a.self = true ∧ a.responseStatus ≠ "declined" then
    stepTriple st
      (Triple.mk e (roundToNearest15 (e.start.getD 0))
        (roundToNearest15 (e.«end».getD 0)))
  else st

/-- main.go:101-143 — one item-loop iteration: skip all-day events,
synthesize the attendee, then run the attendee loop. -/
def stepItem (st : BuildState) (e : Event) : BuildState :=
  if e.start = none ∨ e.«end» = none then st
  else (normAttendees e).attendees.foldl (stepAttendee (normAttendees e)) st

/-- main.go:145-153 — append the trailing gap chunk when `lo` is before
the end of day, and return the chunks in emission order. -/
def finalizeChunks (hi : Nat) (st : BuildState) : List Chunk :=
  if st.lo < hi then
    (Chunk.mk none st.lo hi (gapNotes st.intersect) :: st.rev).reverse
  else st.rev.reverse

/-- main.go:87-154 — the chunk-building core.  `date` is midnight of the
requested day, in seconds. -/
def Chunkify (date : Nat) (items : List Event) : List Chunk :=
  if items = [] then
    [Chunk.mk none (date + startOfDay * 3600) (date + endOfDay * 3600) ""]
  else
    finalizeChunks (date + endOfDay * 3600)
      (items.foldl stepItem (BuildState.mk (date + startOfDay * 3600) [] none))

/-- The caller-visible state of the `items` slice after `Chunkify`
returns.  main.go:108-111 assigns `e.Attendees = append(e.Attendees, …)`
through the shared `*calendar.Event` pointer for every timed event with
an empty attendee list whose creator is self, so those events are mutated
in place; the all-day `continue` at main.go:103-105 happens first, so
all-day events are left untouched. -/
def chunkifyItemsAfter (items : List Event) : List Event :=
  items.map fun e =>
    if e.start = none ∨ e.«end» = none then e else normAttendees e

/-- The normalized relevant occurrences an event contributes to the pass:
one per self, non-declined attendee of the (synthesized) attendee list,
each carrying the rounded boundaries (main.go:101-121). -/
def eventTriples (e : Event) : List Triple :=
  if e.start = none ∨ e.«end» = none then []
  else
    ((normAttendees e).attendees.filter fun a =>
        a.self && !(a.responseStatus == "declined")).map fun _ =>
      Triple.mk (normAttendees e)
        (roundToNearest15 ((normAttendees e).start.getD 0))
        (roundToNearest15 ((normAttendees e).«end».getD 0))

/-- The event-independent part of a chunk: start, end, notes. -/
def chunkShape (c : Chunk) : Nat × Nat × String := (c.start, c.«end», c.notes)

/-! ### Sanity checks: the five scenarios of the repository's `main_test.go` -/

def mkTestEvent (s e : Nat) (summary status : String) : Event :=
  Event.mk (some (s * 3600)) (some (e * 3600)) summary
    [Attendee.mk true status] false

example :
    (Chunkify 0 []).map chunkShape = [(32400, 61200, "")] := by decide

example :
    (Chunkify 0 [mkTestEvent 10 12 "declined event" "declined"]).map chunkShape
      = [(32400, 61200, "")] := by decide

example :
    (Chunkify 0 [mkTestEvent 10 12 "accepted event" "accepted"]).map chunkShape
      = [(32400, 36000, ""), (36000, 43200, "accepted event"),
         (43200, 61200, "")] := by decide

example :
    (Chunkify 0 [mkTestEvent 10 12 "accepted event" "accepted",
        mkTestEvent 13 14 "gap event" "accepted"]).map Chunk.notes
      = ["", "accepted event", "", "gap event", ""] := by decide

example :
    (Chunkify 0 [mkTestEvent 8 17 "overlapping event" "accepted",
        mkTestEvent 10 12 "accepted event" "accepted",
        mkTestEvent 13 14 "gap event" "accepted"]).map Chunk.notes
      = ["overlapping event", "accepted event", "overlapping event",
         "gap event", "overlapping event"] := by decide

/-! ### Generic fold preservation -/

theorem foldl_preserve {α : Type} {P : BuildState → Prop}
    {f : BuildState → α → BuildState} (hf : ∀ st a, P st → P (f st a)) :
    ∀ (l : List α) (st : BuildState), P st → P (l.foldl f st)
  | [], _, h => h
  | x :: xs, st, h => foldl_preserve hf xs (f st x) (hf st x h)

/-! ### Contiguity invariant -/

/-- Relation between chunks in reverse emission order: the newer chunk
starts where the older one ends. -/
def revRel (a b : Chunk) : Prop := a.start = b.«end»

/-- Loop invariant: the reversed chunk list is contiguous and the newest
chunk (if any) ends at the low-water mark. -/
def ChainInv (st : BuildState) : Prop :=
  List.Chain' revRel st.rev ∧ ∀ hd ∈ st.rev.head?, hd.«end» = st.lo

theorem gapped_chain (st : BuildState) (rs : Nat) (h : ChainInv st) :
    List.Chain' revRel (gapped st rs) := by
  obtain ⟨hc, hh⟩ := h
  unfold gapped
  split
  · exact List.chain'_cons'.mpr ⟨fun b hb => (hh b hb).symm, hc⟩
  · exact hc

theorem gapped_end_ge (st : BuildState) (rs : Nat)
    (h : ∀ hd ∈ st.rev.head?, hd.«end» = st.lo)
    (p : Chunk) (rest : List Chunk) (hg : gapped st rs = p :: rest) :
    rs ≤ p.«end» := by
  unfold gapped at hg
  split at hg
  · cases hg
    exact le_rfl
  · have hp : p.«end» = st.lo := h p (by rw [hg]; rfl)
    omega

theorem chainInv_stepTriple (st : BuildState) (tr : Triple) (h : ChainInv st) :
    ChainInv (stepTriple st tr) := by
  have hgc := gapped_chain st tr.rs h
  obtain ⟨hc, hh⟩ := h
  unfold stepTriple
  cases hg : gapped st tr.rs with
  | nil =>
      refine ⟨by simp [placeEvent], ?_⟩
      intro hd hhd
      simp [placeEvent] at hhd
      subst hhd
      rfl
  | cons p rest =>
      rw [hg] at hgc
      have hle := gapped_end_ge st tr.rs hh p rest hg
      by_cases hlt : tr.rs < p.«end»
      · simp only [placeEvent, if_pos hlt]
        refine ⟨?_, ?_⟩
        · refine List.chain'_cons.mpr ⟨rfl, ?_⟩
          exact List.chain'_cons'.mpr
            ⟨fun b hb => (List.chain'_cons'.mp hgc).1 b hb,
             (List.chain'_cons'.mp hgc).2⟩
        · intro hd hhd
          simp at hhd
          subst hhd
          rfl
      · simp only [placeEvent, if_neg hlt]
        have heq : tr.rs = p.«end» := by omega
        refine ⟨List.chain'_cons.mpr ⟨heq, hgc⟩, ?_⟩
        intro hd hhd
        simp at hhd
        subst hhd
        rfl

theorem chainInv_stepAttendee (e : Event) (st : BuildState) (a : Attendee)
    (h : ChainInv st) : ChainInv (stepAttendee e st a) := by
  unfold stepAttendee
  split
  · exact chainInv_stepTriple _ _ h
  · exact h

theorem chainInv_stepItem (st : BuildState) (e : Event) (h : ChainInv st) :
    ChainInv (stepItem st e) := by
  unfold stepItem
  split
  · exact h
  · exact foldl_preserve (chainInv_stepAttendee _) _ st h

theorem finalize_chain (hi : Nat) (st : BuildState) (h : ChainInv st) :
    List.Chain' (fun a b => a.«end» = b.start) (finalizeChunks hi st) := by
  unfold finalizeChunks
  split
  · rw [List.chain'_reverse]
    have hch : List.Chain' revRel
        (Chunk.mk none st.lo hi (gapNotes st.intersect) :: st.rev) :=
      List.chain'_cons'.mpr ⟨fun b hb => (h.2 b hb).symm, h.1⟩
    exact hch.imp fun a b hab => hab.symm
  · rw [List.chain'_reverse]
    exact h.1.imp fun a b hab => hab.symm

theorem chunkify_chain (date : Nat) (items : List Event) :
    List.Chain' (fun a b => a.«end» = b.start) (Chunkify date items) := by
  unfold Chunkify
  split
  · simp
  · exact finalize_chain _ _
      (foldl_preserve chainInv_stepItem items _ ⟨List.chain'_nil, by simp⟩)

/-- Claim C2: for every input event list and every index `i` with
`0 <= i < len(chunks) - 1`, the sequence returned by `Chunkify` satisfies
`chunks[i].end == chunks[i+1].start` — each chunk begins exactly where the
previous one ended. -/
theorem C2_contiguity (date : Nat) (items : List Event) (i : Nat)
    (h : i + 1 < (Chunkify date items).length) :
    ((Chunkify date items).get ⟨i, by omega⟩).«end»
      = ((Chunkify date items).get ⟨i + 1, by omega⟩).start :=
  List.chain'_iff_get.mp (chunkify_chain date items) i (by omega)

/-- Witness for C2 at the repository's "includes accepted events"
scenario. -/
theorem C2_contiguity_witness :
    ((Chunkify 0 [mkTestEvent 10 12 "accepted event" "accepted"]).get
        ⟨0, by decide⟩).«end»
      = ((Chunkify 0 [mkTestEvent 10 12 "accepted event" "accepted"]).get
        ⟨0 + 1, by decide⟩).start :=
  C2_contiguity 0 [mkTestEvent 10 12 "accepted event" "accepted"] 0 (by decide)

/-- Claim C9: `roundToNearest15` rounds each boundary to the nearest
15-minute mark: a timestamp exactly 7 min 30 s (450 s) past a quarter
hour rounds up to the next quarter hour, and one 7 min 29 s (449 s) past
a quarter hour rounds down to that quarter hour. -/
theorem C9_rounding (q : Nat) :
    roundToNearest15 (900 * q + 450) = 900 * (q + 1) ∧
    roundToNearest15 (900 * q + 449) = 900 * q := by
  unfold roundToNearest15
  constructor <;> omega

/-! ### The pass factors through the normalized relevant occurrences -/

theorem relAttendee_iff (a : Attendee) :
    (a.self && !(a.responseStatus == "declined")) = true ↔
      (a.self = true ∧ a.responseStatus ≠ "declined") := by
  simp [Bool.and_eq_true]

theorem foldl_attendees_eq (e2 : Event) (as : List Attendee) (st : BuildState) :
    as.foldl (stepAttendee e2) st =
      ((as.filter fun a => a.self && !(a.responseStatus == "declined")).map
        fun _ => Triple.mk e2 (roundToNearest15 (e2.start.getD 0))
          (roundToNearest15 (e2.«end».getD 0))).foldl stepTriple st := by
  induction as generalizing st with
  | nil => rfl
  | cons a as ih =>
      rw [List.foldl_cons, List.filter_cons]
      by_cases hb : (a.self && !(a.responseStatus == "declined")) = true
      · rw [if_pos hb, List.map_cons, List.foldl_cons]
        rw [show stepAttendee e2 st a = stepTriple st
            (Triple.mk e2 (roundToNearest15 (e2.start.getD 0))
              (roundToNearest15 (e2.«end».getD 0))) from by
          unfold stepAttendee; rw [if_pos ((relAttendee_iff a).mp hb)]]
        exact ih _
      · rw [if_neg hb]
        rw [show stepAttendee e2 st a = st from by
          unfold stepAttendee; rw [if_neg ((relAttendee_iff a).not.mp hb)]]
        exact ih _

theorem stepItem_eq_triples (st : BuildState) (e : Event) :
    stepItem st e = (eventTriples e).foldl stepTriple st := by
  unfold stepItem eventTriples
  by_cases h : e.start = none ∨ e.«end» = none
  · simp [h]
  · simp only [h, if_neg, if_false]
    exact foldl_attendees_eq _ _ _

theorem foldl_items_eq (items : List Event) (st : BuildState) :
    items.foldl stepItem st =
      (items.flatMap eventTriples).foldl stepTriple st := by
  induction items generalizing st with
  | nil => rfl
  | cons e rest ih =>
      rw [List.foldl_cons, List.flatMap_cons, List.foldl_append,
        stepItem_eq_triples, ih]

/-- Claim C7: if the input list is empty, or every event in it is
filtered out (all-day, or — after the no-attendee synthesis — no self
non-declined attendee), `Chunkify` returns exactly one chunk
`[startOfDay, endOfDay)` with empty notes.  The embedding is a total
function, so no error is ever signalled. -/
theorem C7_empty (date : Nat) (items : List Event)
    (h : ∀ e ∈ items, e.start = none ∨ e.«end» = none ∨
      ∀ a ∈ (normAttendees e).attendees,
        a.self = false ∨ a.responseStatus = "declined") :
    Chunkify date items =
      [Chunk.mk none (date + startOfDay * 3600) (date + endOfDay * 3600) ""] := by
  unfold Chunkify
  split
  · rfl
  · have ht : items.flatMap eventTriples = [] := by
      rw [List.flatMap_eq_nil_iff]
      intro e he
      unfold eventTriples
      rcases h e he with h1 | h1 | h1
      · simp [h1]
      · simp [h1]
      · split
        · rfl
        · rw [List.map_eq_nil_iff, List.filter_eq_nil_iff]
          intro a ha
          rcases h1 a ha with h2 | h2 <;> simp [h2]
    rw [foldl_items_eq, ht]
    unfold finalizeChunks
    simp only [List.foldl_nil]
    rw [if_pos (by simp only [startOfDay, endOfDay]; omega)]
    rfl

/-- Witness for C7: an all-day event, a declined event and an event the
user does not attend collapse to the single full-window gap chunk. -/
theorem C7_empty_witness :
    Chunkify 0 [Event.mk none none "x" [] true,
        mkTestEvent 10 12 "declined event" "declined",
        Event.mk (some 36000) (some 43200) "n" [Attendee.mk false "accepted"] false]
      = [Chunk.mk none (0 + startOfDay * 3600) (0 + endOfDay * 3600) ""] :=
  C7_empty 0 _ (by decide)

/-! ### Overlap resolution and the intersect pointer -/

theorem stepTriple_lo (st : BuildState) (tr : Triple) :
    (stepTriple st tr).lo = tr.re := by
  unfold stepTriple
  cases gapped st tr.rs with
  | nil => rfl
  | cons p rest =>
      by_cases h : tr.rs < p.«end» <;> simp [placeEvent, h]

theorem stepTriple_intersect_ne (st : BuildState) (tr : Triple)
    (h : st.intersect ≠ none) : (stepTriple st tr).intersect ≠ none := by
  unfold stepTriple
  cases gapped st tr.rs with
  | nil => exact h
  | cons p rest =>
      by_cases hlt : tr.rs < p.«end»
      · simp [placeEvent, hlt]
      · simpa [placeEvent, hlt] using h

/-- Claim C3: during the pass, (a) whenever the newly emitted event
chunk's rounded start `tr.rs` is strictly before the immediately
preceding chunk's end, that chunk's end is truncated to `tr.rs` and the
truncated chunk is recorded in `intersect`; (b) a pre-event gap chunk
emitted while `intersect` is set carries the intersect chunk's notes
instead of `""`; (c) so does the trailing gap chunk. -/
theorem C3_overlap (st : BuildState) (tr : Triple) (hi : Nat) :
    (∀ p rest, gapped st tr.rs = p :: rest → tr.rs < p.«end» →
      (stepTriple st tr).rev =
        eventChunk tr :: Chunk.mk p.event p.start tr.rs p.notes :: rest ∧
      (stepTriple st tr).intersect =
        some (Chunk.mk p.event p.start tr.rs p.notes)) ∧
    (∀ ic, st.intersect = some ic → st.lo < tr.rs →
      gapped st tr.rs = Chunk.mk none st.lo tr.rs ic.notes :: st.rev) ∧
    (∀ ic, st.intersect = some ic → st.lo < hi →
      finalizeChunks hi st =
        (Chunk.mk none st.lo hi ic.notes :: st.rev).reverse) := by
  refine ⟨?_, ?_, ?_⟩
  · intro p rest hg hlt
    unfold stepTriple
    rw [hg]
    simp [placeEvent, hlt]
  · intro ic hic hlo
    unfold gapped
    rw [if_pos hlo, hic]
    rfl
  · intro ic hic hlo
    unfold finalizeChunks
    rw [if_pos hlo, hic]
    rfl

/-- Witness for C3: a truncation at a concrete overlapping state, and
gap-note inheritance at a concrete state with `intersect` set. -/
theorem C3_overlap_witness :
    ((stepTriple (BuildState.mk 400 [Chunk.mk none 100 400 "p"] none)
        (Triple.mk (mkTestEvent 10 12 "a" "accepted") 300 500)).rev =
      eventChunk (Triple.mk (mkTestEvent 10 12 "a" "accepted") 300 500) ::
        Chunk.mk none 100 300 "p" :: [] ∧
      (stepTriple (BuildState.mk 400 [Chunk.mk none 100 400 "p"] none)
        (Triple.mk (mkTestEvent 10 12 "a" "accepted") 300 500)).intersect =
        some (Chunk.mk none 100 300 "p")) ∧
    gapped (BuildState.mk 400 [] (some (Chunk.mk none 0 100 "n")))
        (Triple.mk (mkTestEvent 10 12 "a" "accepted") 500 550).rs =
      Chunk.mk none 400 500 "n" :: [] ∧
    finalizeChunks 600 (BuildState.mk 400 [] (some (Chunk.mk none 0 100 "n"))) =
      (Chunk.mk none 400 600 "n" :: []).reverse := by
  refine ⟨?_, ?_, ?_⟩
  · exact (C3_overlap (BuildState.mk 400 [Chunk.mk none 100 400 "p"] none)
      (Triple.mk (mkTestEvent 10 12 "a" "accepted") 300 500) 600).1
      (Chunk.mk none 100 400 "p") [] rfl (by decide)
  · exact (C3_overlap (BuildState.mk 400 [] (some (Chunk.mk none 0 100 "n")))
      (Triple.mk (mkTestEvent 10 12 "a" "accepted") 500 550) 600).2.1
      (Chunk.mk none 0 100 "n") rfl (by decide)
  · exact (C3_overlap (BuildState.mk 400 [] (some (Chunk.mk none 0 100 "n")))
      (Triple.mk (mkTestEvent 10 12 "a" "accepted") 500 550) 600).2.2
      (Chunk.mk none 0 100 "n") rfl (by decide)

/-- Claim C10 (implicit): once set, the `intersect` pointer is never
cleared — it survives every later step and the whole remaining fold — so
every later gap chunk (pre-event or trailing) receives the current
intersect chunk's notes, with no condition relating the gap's position to
the truncated chunk's span. -/
theorem C10_intersect (st : BuildState) (tr : Triple) (l : List Triple)
    (hi : Nat) (ic : Chunk) (h : st.intersect = some ic) :
    (stepTriple st tr).intersect ≠ none ∧
    (l.foldl stepTriple st).intersect ≠ none ∧
    (st.lo < tr.rs →
      Chunk.mk none st.lo tr.rs ic.notes ∈ (stepTriple st tr).rev) ∧
    (st.lo < hi → (finalizeChunks hi st).getLast? =
      some (Chunk.mk none st.lo hi ic.notes)) := by
  refine ⟨stepTriple_intersect_ne st tr (by simp [h]), ?_, ?_, ?_⟩
  · exact foldl_preserve (fun st tr h => stepTriple_intersect_ne st tr h) l st
      (by simp [h])
  · intro hlo
    unfold stepTriple gapped
    rw [if_pos hlo, h]
    show Chunk.mk none st.lo tr.rs ic.notes ∈
      (placeEvent (some ic) tr (Chunk.mk none st.lo tr.rs ic.notes :: st.rev)).rev
    rw [placeEvent, if_neg (by simp)]
    simp
  · intro hlo
    unfold finalizeChunks
    rw [if_pos hlo, h, List.getLast?_reverse]
    rfl

/-- Witness for C10 at a concrete state with `intersect` set. -/
theorem C10_intersect_witness :
    (stepTriple (BuildState.mk 100 [] (some (Chunk.mk none 0 100 "x")))
        (Triple.mk (mkTestEvent 10 12 "a" "accepted") 200 300)).intersect ≠ none ∧
    (([Triple.mk (mkTestEvent 10 12 "a" "accepted") 200 300].foldl stepTriple
        (BuildState.mk 100 [] (some (Chunk.mk none 0 100 "x")))).intersect ≠ none) ∧
    Chunk.mk none 100 200 "x" ∈
      (stepTriple (BuildState.mk 100 [] (some (Chunk.mk none 0 100 "x")))
        (Triple.mk (mkTestEvent 10 12 "a" "accepted") 200 300)).rev ∧
    (finalizeChunks 500 (BuildState.mk 100 [] (some (Chunk.mk none 0 100 "x")))).getLast?
      = some (Chunk.mk none 100 500 "x") := by
  have h := C10_intersect (BuildState.mk 100 [] (some (Chunk.mk none 0 100 "x")))
    (Triple.mk (mkTestEvent 10 12 "a" "accepted") 200 300)
    [Triple.mk (mkTestEvent 10 12 "a" "accepted") 200 300] 500
    (Chunk.mk none 0 100 "x") rfl
  exact ⟨h.1, h.2.1, h.2.2.1 (by decide), h.2.2.2 (by decide)⟩

/-! ### Coverage -/

theorem getLast?_cons_ne {α : Type} (a : α) (l : List α) (h : l ≠ []) :
    (a :: l).getLast? = l.getLast? := by
  cases l with
  | nil => exact absurd rfl h
  | cons b bs => rw [List.getLast?_cons_cons]

theorem getLast?_start_mod (p : Chunk) (x : Nat) (rest : List Chunk) :
    ((Chunk.mk p.event p.start x p.notes :: rest).getLast?).map Chunk.start
      = ((p :: rest).getLast?).map Chunk.start := by
  cases rest with
  | nil => rfl
  | cons b bs => rw [List.getLast?_cons_cons, List.getLast?_cons_cons]

theorem gapped_ne_nil (st : BuildState) (rs : Nat) (h : st.rev ≠ []) :
    gapped st rs ≠ [] := by
  unfold gapped
  split
  · exact List.cons_ne_nil _ _
  · exact h

theorem gapped_getLast_start (st : BuildState) (rs : Nat) (h : st.rev ≠ []) :
    ((gapped st rs).getLast?).map Chunk.start
      = (st.rev.getLast?).map Chunk.start := by
  unfold gapped
  split
  · rw [getLast?_cons_ne _ _ h]
  · rfl

theorem stepTriple_getLast_start (st : BuildState) (tr : Triple)
    (h : st.rev ≠ []) :
    ((stepTriple st tr).rev.getLast?).map Chunk.start
      = (st.rev.getLast?).map Chunk.start := by
  unfold stepTriple
  cases hg : gapped st tr.rs with
  | nil => exact absurd hg (gapped_ne_nil st tr.rs h)
  | cons p rest =>
      have hgl : ((p :: rest).getLast?).map Chunk.start
          = (st.rev.getLast?).map Chunk.start := by
        rw [← hg]
        exact gapped_getLast_start st tr.rs h
      by_cases hlt : tr.rs < p.«end»
      · simp only [placeEvent, if_pos hlt]
        rw [getLast?_cons_ne _ _ (List.cons_ne_nil _ _), getLast?_start_mod]
        exact hgl
      · simp only [placeEvent, if_neg hlt]
        rw [getLast?_cons_ne _ _ (List.cons_ne_nil _ _)]
        exact hgl

/-- Invariant tracking the start of the earliest emitted chunk: before
any chunk is emitted the cursor still sits at `lo0`; afterwards the
oldest chunk starts at `lo0`. -/
def FirstInv (lo0 : Nat) (st : BuildState) : Prop :=
  (st.rev = [] ∧ st.lo = lo0) ∨
    (st.rev.getLast?).map Chunk.start = some lo0

theorem firstInv_stepTriple (lo0 : Nat) (st : BuildState) (tr : Triple)
    (hrs : lo0 ≤ tr.rs) (h : FirstInv lo0 st) :
    FirstInv lo0 (stepTriple st tr) := by
  rcases h with ⟨hnil, hlo⟩ | hlast
  · right
    unfold stepTriple gapped
    rw [hnil]
    by_cases hg : st.lo < tr.rs
    · rw [if_pos hg]
      simp only [placeEvent]
      rw [if_neg (by simp)]
      rw [getLast?_cons_ne _ _ (List.cons_ne_nil _ _)]
      simp [hlo]
    · rw [if_neg hg]
      simp only [placeEvent]
      have hrs' : tr.rs = lo0 := by omega
      simp [eventChunk, hrs']
  · right
    have hne : st.rev ≠ [] := by
      intro hn
      rw [hn] at hlast
      simp at hlast
    rw [stepTriple_getLast_start st tr hne]
    exact hlast

theorem firstInv_fold (lo0 : Nat) (l : List Triple) (st : BuildState)
    (hl : ∀ tr ∈ l, lo0 ≤ tr.rs) (h : FirstInv lo0 st) :
    FirstInv lo0 (l.foldl stepTriple st) := by
  induction l generalizing st with
  | nil => exact h
  | cons tr rest ih =>
      exact ih _ (fun t ht => hl t (List.mem_cons_of_mem _ ht))
        (firstInv_stepTriple lo0 st tr (hl tr (List.mem_cons_self _ _)) h)

theorem foldl_lo_le (hi : Nat) (l : List Triple) (st : BuildState)
    (h0 : st.lo ≤ hi) (h : ∀ tr ∈ l, tr.re ≤ hi) :
    (l.foldl stepTriple st).lo ≤ hi := by
  induction l generalizing st with
  | nil => exact h0
  | cons tr rest ih =>
      refine ih _ ?_ (fun t ht => h t (List.mem_cons_of_mem _ ht))
      rw [stepTriple_lo]
      exact h tr (List.mem_cons_self _ _)

/-- Claim C1 is false as stated; this is the amended version: provided
every relevant occurrence's rounded start is at or after `startOfDay`
and its rounded end at or before `endOfDay`, the output starts at
`date+9h` and ends at `date+17h` (and is in particular nonempty). -/
theorem C1_coverage (date : Nat) (items : List Event)
    (h : ∀ tr ∈ items.flatMap eventTriples,
      date + startOfDay * 3600 ≤ tr.rs ∧ tr.re ≤ date + endOfDay * 3600) :
    (Chunkify date items).head?.map Chunk.start
      = some (date + startOfDay * 3600) ∧
    (Chunkify date items).getLast?.map Chunk.«end»
      = some (date + endOfDay * 3600) := by
  have hlohi : date + startOfDay * 3600 < date + endOfDay * 3600 := by
    simp only [startOfDay, endOfDay]
    omega
  unfold Chunkify
  split
  · exact ⟨rfl, rfl⟩
  · rw [foldl_items_eq]
    have hchain : ChainInv ((items.flatMap eventTriples).foldl stepTriple
        (BuildState.mk (date + startOfDay * 3600) [] none)) := by
      rw [← foldl_items_eq]
      exact foldl_preserve chainInv_stepItem items _ ⟨List.chain'_nil, by simp⟩
    generalize hst : (items.flatMap eventTriples).foldl stepTriple
      (BuildState.mk (date + startOfDay * 3600) [] none) = st
    rw [hst] at hchain
    have hfirst : FirstInv (date + startOfDay * 3600) st := by
      rw [← hst]
      exact firstInv_fold _ _ _ (fun tr htr => (h tr htr).1) (Or.inl ⟨rfl, rfl⟩)
    have hlo : st.lo ≤ date + endOfDay * 3600 := by
      rw [← hst]
      exact foldl_lo_le _ _ _ (le_of_lt hlohi) (fun tr htr => (h tr htr).2)
    constructor
    · unfold finalizeChunks
      by_cases hc : st.lo < date + endOfDay * 3600
      · rw [if_pos hc, List.head?_reverse]
        rcases hfirst with ⟨hnil, hlo0⟩ | hlast
        · rw [hnil]
          simp [hlo0]
        · rw [getLast?_cons_ne _ _ (by intro hn; rw [hn] at hlast; simp at hlast)]
          exact hlast
      · rw [if_neg hc, List.head?_reverse]
        rcases hfirst with ⟨hnil, hlo0⟩ | hlast
        · exfalso
          omega
        · exact hlast
    · unfold finalizeChunks
      by_cases hc : st.lo < date + endOfDay * 3600
      · rw [if_pos hc, List.getLast?_reverse]
        rfl
      · rw [if_neg hc, List.getLast?_reverse]
        rcases hfirst with ⟨hnil, hlo0⟩ | hlast
        · exfalso
          omega
        · cases hrev : st.rev with
          | nil =>
              rw [hrev] at hlast
              simp at hlast
          | cons hd tl =>
              have hhd : hd.«end» = st.lo := hchain.2 hd (by rw [hrev]; rfl)
              have hei : st.lo = date + endOfDay * 3600 := by omega
              simp [hhd, hei]

/-- Counterexample to claim C1 as stated: a single accepted event from
8:00 to 18:00 (both outside the 9-to-5 window) produces a single chunk
running 8:00 to 18:00, so the output neither starts at `startOfDay` nor
ends at `endOfDay`. -/
theorem C1_counterexample :
    ¬ ((Chunkify 0 [Event.mk (some 28800) (some 64800) "overlapping event"
          [Attendee.mk true "accepted"] false]).head?.map Chunk.start
        = some (0 + startOfDay * 3600) ∧
      (Chunkify 0 [Event.mk (some 28800) (some 64800) "overlapping event"
          [Attendee.mk true "accepted"] false]).getLast?.map Chunk.«end»
        = some (0 + endOfDay * 3600)) := by decide

/-- Witness for the amended C1 at an in-window scenario. -/
theorem C1_coverage_witness :
    (Chunkify 0 [mkTestEvent 10 12 "accepted event" "accepted"]).head?.map
        Chunk.start = some (0 + startOfDay * 3600) ∧
    (Chunkify 0 [mkTestEvent 10 12 "accepted event" "accepted"]).getLast?.map
        Chunk.«end» = some (0 + endOfDay * 3600) :=
  C1_coverage 0 [mkTestEvent 10 12 "accepted event" "accepted"] (by decide)

/-! ### Input mutation -/

theorem map_eq_self_mem {α : Type} (f : α → α) (l : List α) :
    l.map f = l ↔ ∀ x ∈ l, f x = x := by
  induction l with
  | nil => simp
  | cons a as ih => simp [ih]

/-- Claim C4 is false as stated; this is the amended version: the input
list is returned to the caller unchanged exactly when it contains no
timed event with an empty attendee list created by self — those events
(and only those) are mutated in place by the attendee synthesis at
main.go:109. -/
theorem C4_no_mutation (items : List Event) :
    chunkifyItemsAfter items = items ↔
      ∀ e ∈ items, e.start = none ∨ e.«end» = none ∨
        ¬(e.attendees = [] ∧ e.creatorSelf = true) := by
  unfold chunkifyItemsAfter
  rw [map_eq_self_mem]
  refine forall_congr' fun e => forall_congr' fun he => ?_
  by_cases h1 : e.start = none ∨ e.«end» = none
  · rw [if_pos h1]
    simp only [eq_self_iff_true, true_iff]
    tauto
  · rw [if_neg h1]
    rcases not_or.mp h1 with ⟨hs, ht⟩
    by_cases h2 : e.attendees = [] ∧ e.creatorSelf = true
    · unfold normAttendees
      rw [if_pos h2]
      constructor
      · intro heq
        exfalso
        have hatt : [Attendee.mk true ""] = e.attendees :=
          congrArg Event.attendees heq
        rw [h2.1] at hatt
        exact List.cons_ne_nil _ _ hatt
      · intro hr
        rcases hr with h | h | h
        · exact absurd h hs
        · exact absurd h ht
        · exact absurd h2 h
    · unfold normAttendees
      rw [if_neg h2]
      simp only [eq_self_iff_true, true_iff]
      tauto

/-- Counterexample to claim C4 as stated: a timed, attendee-less,
self-created event is mutated — after the call it carries a synthetic
self attendee. -/
theorem C4_counterexample :
    chunkifyItemsAfter [Event.mk (some 36000) (some 43200) "mine" [] true]
      ≠ [Event.mk (some 36000) (some 43200) "mine" [] true] := by decide

/-! ### Declined filtering -/

/-- Every chunk's backing event has a self, non-declined attendee. -/
def EventOk (c : Chunk) : Prop :=
  ∀ e, c.event = some e →
    ∃ a ∈ e.attendees, a.self = true ∧ a.responseStatus ≠ "declined"

theorem eventTriples_attendee (e : Event) (tr : Triple)
    (htr : tr ∈ eventTriples e) :
    ∃ a ∈ tr.ev.attendees, a.self = true ∧ a.responseStatus ≠ "declined" := by
  unfold eventTriples at htr
  split at htr
  · simp at htr
  · obtain ⟨x, hx, hxtr⟩ := List.mem_map.mp htr
    obtain ⟨hxa, hxp⟩ := List.mem_filter.mp hx
    refine ⟨x, ?_, (relAttendee_iff x).mp hxp⟩
    rw [← hxtr]
    exact hxa

theorem eventOk_gapped (st : BuildState) (rs : Nat)
    (h : ∀ c ∈ st.rev, EventOk c) : ∀ c ∈ gapped st rs, EventOk c := by
  unfold gapped
  split
  · intro c hc
    rcases List.mem_cons.mp hc with rfl | hc
    · intro e he
      simp at he
    · exact h c hc
  · exact h

theorem eventOk_stepTriple (st : BuildState) (tr : Triple)
    (htr : ∃ a ∈ tr.ev.attendees, a.self = true ∧ a.responseStatus ≠ "declined")
    (h : ∀ c ∈ st.rev, EventOk c) :
    ∀ c ∈ (stepTriple st tr).rev, EventOk c := by
  have hg := eventOk_gapped st tr.rs h
  unfold stepTriple
  cases hgg : gapped st tr.rs with
  | nil =>
      intro c hc
      simp [placeEvent] at hc
      subst hc
      intro e he
      simp only [eventChunk, Option.some.injEq] at he
      rw [← he]
      exact htr
  | cons p rest =>
      rw [hgg] at hg
      by_cases hlt : tr.rs < p.«end»
      · simp only [placeEvent, if_pos hlt]
        intro c hc
        rcases List.mem_cons.mp hc with rfl | hc
        · intro e he
          simp only [eventChunk, Option.some.injEq] at he
          rw [← he]
          exact htr
        · rcases List.mem_cons.mp hc with rfl | hc
          · intro e he
            exact hg p (List.mem_cons_self _ _) e he
          · exact hg c (List.mem_cons_of_mem _ hc)
      · simp only [placeEvent, if_neg hlt]
        intro c hc
        rcases List.mem_cons.mp hc with rfl | hc
        · intro e he
          simp only [eventChunk, Option.some.injEq] at he
          rw [← he]
          exact htr
        · exact hg c hc

theorem eventOk_fold (l : List Triple) (st : BuildState)
    (hl : ∀ tr ∈ l,
      ∃ a ∈ tr.ev.attendees, a.self = true ∧ a.responseStatus ≠ "declined")
    (h : ∀ c ∈ st.rev, EventOk c) :
    ∀ c ∈ (l.foldl stepTriple st).rev, EventOk c := by
  induction l generalizing st with
  | nil => exact h
  | cons tr rest ih =>
      exact ih _ (fun t ht => hl t (List.mem_cons_of_mem _ ht))
        (eventOk_stepTriple st tr (hl tr (List.mem_cons_self _ _)) h)

theorem chunkify_eventOk (date : Nat) (items : List Event) :
    ∀ c ∈ Chunkify date items, EventOk c := by
  unfold Chunkify
  split
  · intro c hc
    simp at hc
    subst hc
    intro e he
    simp at he
  · rw [foldl_items_eq]
    have hall := eventOk_fold (items.flatMap eventTriples)
      (BuildState.mk (date + startOfDay * 3600) [] none)
      (fun tr htr => by
        obtain ⟨e, he, htr'⟩ := List.mem_flatMap.mp htr
        exact eventTriples_attendee e tr htr')
      (by simp)
    unfold finalizeChunks
    split
    · intro c hc
      rw [List.mem_reverse] at hc
      rcases List.mem_cons.mp hc with rfl | hc
      · intro e he
        simp at he
      · exact hall c hc
    · intro c hc
      rw [List.mem_reverse] at hc
      exact hall c hc

/-- Claim C5 is false as stated; this is the amended version: an event
that has a self declined attendee and whose self attendees are all
declined never appears as an event chunk — no output chunk is derived
from it. -/
theorem C5_declined (date : Nat) (items : List Event) (e : Event)
    (_hd : ∃ a ∈ e.attendees, a.self = true ∧ a.responseStatus = "declined")
    (hall : ∀ a ∈ e.attendees, a.self = true → a.responseStatus = "declined")
    (c : Chunk) (hc : c ∈ Chunkify date items) :
    c.event ≠ some e := by
  intro hce
  obtain ⟨a, ha, hself, hnd⟩ := chunkify_eventOk date items c hc e hce
  exact hnd (hall a ha hself)

/-- Counterexample to claim C5 as stated: an event with one declined and
one accepted self attendee does appear as an event chunk (the attendee
loop keeps the accepted occurrence). -/
theorem C5_counterexample :
    1 < (Chunkify 0 [Event.mk (some 36000) (some 43200) "s"
        [Attendee.mk true "declined", Attendee.mk true "accepted"] false]).length ∧
    ((Chunkify 0 [Event.mk (some 36000) (some 43200) "s"
        [Attendee.mk true "declined", Attendee.mk true "accepted"] false]).getD 1
      (Chunk.mk none 0 0 "")).event
      = some (Event.mk (some 36000) (some 43200) "s"
        [Attendee.mk true "declined", Attendee.mk true "accepted"] false) := by
  decide

/-- Witness for the amended C5: an event whose only attendee is a
declined self attendee backs no chunk of the output. -/
theorem C5_declined_witness :
    ((Chunkify 0 [Event.mk (some 36000) (some 43200) "d"
        [Attendee.mk true "declined"] false]).getD 0 (Chunk.mk none 0 0 "")).event
      ≠ some (Event.mk (some 36000) (some 43200) "d"
        [Attendee.mk true "declined"] false) :=
  C5_declined 0
    [Event.mk (some 36000) (some 43200) "d" [Attendee.mk true "declined"] false]
    (Event.mk (some 36000) (some 43200) "d" [Attendee.mk true "declined"] false)
    (by decide) (by decide) _ (by decide)

/-! ### Non-negative durations -/

theorem roundToNearest15_mono {s t : Nat} (h : s ≤ t) :
    roundToNearest15 s ≤ roundToNearest15 t := by
  unfold roundToNearest15
  have hd : (s + 450) / 900 ≤ (t + 450) / 900 :=
    Nat.div_le_div_right (by omega)
  omega

theorem normAttendees_start (e : Event) :
    (normAttendees e).start = e.start := by
  unfold normAttendees
  split <;> rfl

theorem normAttendees_end (e : Event) :
    (normAttendees e).«end» = e.«end» := by
  unfold normAttendees
  split <;> rfl

theorem eventTriples_bounds (e : Event) (tr : Triple)
    (htr : tr ∈ eventTriples e) :
    tr.rs = roundToNearest15 (e.start.getD 0) ∧
    tr.re = roundToNearest15 (e.«end».getD 0) ∧
    e.start ≠ none ∧ e.«end» ≠ none := by
  unfold eventTriples at htr
  split at htr
  · simp at htr
  · next hcond =>
      obtain ⟨x, _, hxtr⟩ := List.mem_map.mp htr
      rcases not_or.mp hcond with ⟨hs, ht⟩
      rw [← hxtr]
      simp [normAttendees_start, normAttendees_end, hs, ht]

theorem pairwise_of_forall_mem {α : Type} {R : α → α → Prop} {l : List α}
    (h : ∀ a ∈ l, ∀ b ∈ l, R a b) : l.Pairwise R := by
  induction l with
  | nil => exact List.Pairwise.nil
  | cons a as ih =>
      refine List.Pairwise.cons
        (fun b hb => h a (List.mem_cons_self _ _) b (List.mem_cons_of_mem _ hb)) ?_
      exact ih fun x hx y hy =>
        h x (List.mem_cons_of_mem _ hx) y (List.mem_cons_of_mem _ hy)

theorem triples_sorted (items : List Event)
    (hsort : items.Pairwise fun e1 e2 =>
      ∀ s1 ∈ e1.start, ∀ s2 ∈ e2.start, s1 ≤ s2) :
    (items.flatMap eventTriples).Pairwise fun t1 t2 => t1.rs ≤ t2.rs := by
  induction items with
  | nil => exact List.Pairwise.nil
  | cons e rest ih =>
      rw [List.flatMap_cons, List.pairwise_append]
      obtain ⟨hhead, htail⟩ := List.pairwise_cons.mp hsort
      refine ⟨?_, ih htail, ?_⟩
      · refine pairwise_of_forall_mem fun t1 h1 t2 h2 => ?_
        rw [(eventTriples_bounds e t1 h1).1, (eventTriples_bounds e t2 h2).1]
      · intro t1 h1 t2 h2
        obtain ⟨e2, he2, ht2⟩ := List.mem_flatMap.mp h2
        obtain ⟨hrs1, _, hs1, _⟩ := eventTriples_bounds e t1 h1
        obtain ⟨hrs2, _, hs2, _⟩ := eventTriples_bounds e2 t2 ht2
        obtain ⟨s1, hs1'⟩ := Option.ne_none_iff_exists'.mp hs1
        obtain ⟨s2, hs2'⟩ := Option.ne_none_iff_exists'.mp hs2
        have hle : s1 ≤ s2 := hhead e2 he2 s1 (by simp [hs1']) s2 (by simp [hs2'])
        rw [hrs1, hrs2, hs1', hs2']
        exact roundToNearest15_mono hle

theorem triples_dur (items : List Event)
    (hdur : ∀ e ∈ items, ∀ s ∈ e.start, ∀ t ∈ e.«end», s ≤ t) :
    ∀ tr ∈ items.flatMap eventTriples, tr.rs ≤ tr.re := by
  intro tr htr
  obtain ⟨e, he, htr'⟩ := List.mem_flatMap.mp htr
  obtain ⟨hrs, hre, hs, ht⟩ := eventTriples_bounds e tr htr'
  obtain ⟨s, hs'⟩ := Option.ne_none_iff_exists'.mp hs
  obtain ⟨t, ht'⟩ := Option.ne_none_iff_exists'.mp ht
  have hle : s ≤ t := hdur e he s (by simp [hs']) t (by simp [ht'])
  rw [hrs, hre, hs', ht']
  exact roundToNearest15_mono hle

theorem stepTriple_head (st : BuildState) (tr : Triple) :
    (stepTriple st tr).rev.head? = some (eventChunk tr) := by
  unfold stepTriple
  cases gapped st tr.rs with
  | nil => rfl
  | cons p rest =>
      by_cases h : tr.rs < p.«end» <;> simp [placeEvent, h]

theorem stepTriple_dur (st : BuildState) (tr : Triple) (hre : tr.rs ≤ tr.re)
    (hok : ∀ c ∈ st.rev, c.start ≤ c.«end»)
    (hhd : ∀ hd ∈ st.rev.head?, hd.start ≤ tr.rs) :
    ∀ c ∈ (stepTriple st tr).rev, c.start ≤ c.«end» := by
  have hgok : ∀ c ∈ gapped st tr.rs, c.start ≤ c.«end» := by
    unfold gapped
    split
    · intro c hc
      rcases List.mem_cons.mp hc with rfl | hc
      · show st.lo ≤ tr.rs
        omega
      · exact hok c hc
    · exact hok
  unfold stepTriple
  cases hg : gapped st tr.rs with
  | nil =>
      intro c hc
      simp [placeEvent] at hc
      subst hc
      exact hre
  | cons p rest =>
      rw [hg] at hgok
      by_cases hlt : tr.rs < p.«end»
      · have hnog : ¬ st.lo < tr.rs := by
          intro hgap
          unfold gapped at hg
          rw [if_pos hgap] at hg
          injection hg with h1 h2
          rw [← h1] at hlt
          exact absurd hlt (by simp)
        have hrev : st.rev = p :: rest := by
          unfold gapped at hg
          rwa [if_neg hnog] at hg
        have hps : p.start ≤ tr.rs := hhd p (by rw [hrev]; rfl)
        simp only [placeEvent, if_pos hlt]
        intro c hc
        rcases List.mem_cons.mp hc with rfl | hc
        · exact hre
        · rcases List.mem_cons.mp hc with rfl | hc
          · exact hps
          · exact hok c (by rw [hrev]; exact List.mem_cons_of_mem _ hc)
      · simp only [placeEvent, if_neg hlt]
        intro c hc
        rcases List.mem_cons.mp hc with rfl | hc
        · exact hre
        · exact hgok c hc

theorem dur_fold (l : List Triple) (st : BuildState)
    (hpw : l.Pairwise fun t1 t2 => t1.rs ≤ t2.rs)
    (hre : ∀ tr ∈ l, tr.rs ≤ tr.re)
    (hok : ∀ c ∈ st.rev, c.start ≤ c.«end»)
    (hhd : ∀ hd ∈ st.rev.head?, ∀ tr ∈ l, hd.start ≤ tr.rs) :
    ∀ c ∈ (l.foldl stepTriple st).rev, c.start ≤ c.«end» := by
  induction l generalizing st with
  | nil => exact hok
  | cons tr rest ih =>
      rw [List.foldl_cons]
      refine ih (stepTriple st tr) (List.pairwise_cons.mp hpw).2
        (fun t ht => hre t (List.mem_cons_of_mem _ ht))
        (stepTriple_dur st tr (hre tr (List.mem_cons_self _ _)) hok
          (fun hd hhd' => hhd hd hhd' tr (List.mem_cons_self _ _))) ?_
      intro hd hhd' t ht
      rw [stepTriple_head] at hhd'
      simp only [Option.mem_def, Option.some.injEq] at hhd'
      rw [← hhd']
      exact (List.pairwise_cons.mp hpw).1 t ht

/-- Claim C6: if the input events are ordered by start time ascending and
each event's start is not after its end, every chunk of the output has
`end >= start` (zero-duration chunks permitted), including chunks whose
end was truncated by a later overlapping event. -/
theorem C6_nonneg (date : Nat) (items : List Event)
    (hsort : items.Pairwise fun e1 e2 =>
      ∀ s1 ∈ e1.start, ∀ s2 ∈ e2.start, s1 ≤ s2)
    (hdur : ∀ e ∈ items, ∀ s ∈ e.start, ∀ t ∈ e.«end», s ≤ t)
    (c : Chunk) (hc : c ∈ Chunkify date items) :
    c.start ≤ c.«end» := by
  unfold Chunkify at hc
  split at hc
  · simp at hc
    subst hc
    show date + startOfDay * 3600 ≤ date + endOfDay * 3600
    simp only [startOfDay, endOfDay]
    omega
  · rw [foldl_items_eq] at hc
    have hall := dur_fold (items.flatMap eventTriples)
      (BuildState.mk (date + startOfDay * 3600) [] none)
      (triples_sorted items hsort) (triples_dur items hdur)
      (by simp) (by simp)
    unfold finalizeChunks at hc
    split at hc
    · rw [List.mem_reverse] at hc
      rcases List.mem_cons.mp hc with rfl | hc
      · next hlt => exact le_of_lt hlt
      · exact hall c hc
    · rw [List.mem_reverse] at hc
      exact hall c hc

/-- Witness for C6: every chunk of the overlap scenario has nonnegative
duration. -/
theorem C6_nonneg_witness :
    ((Chunkify 0 [mkTestEvent 8 17 "overlapping event" "accepted",
        mkTestEvent 10 12 "accepted event" "accepted"]).getD 0
      (Chunk.mk none 0 1 "")).start
      ≤ ((Chunkify 0 [mkTestEvent 8 17 "overlapping event" "accepted",
        mkTestEvent 10 12 "accepted event" "accepted"]).getD 0
      (Chunk.mk none 0 1 "")).«end» :=
  C6_nonneg 0 [mkTestEvent 8 17 "overlapping event" "accepted",
      mkTestEvent 10 12 "accepted event" "accepted"]
    (by simp [mkTestEvent]) (by simp [mkTestEvent]) _ (by decide)

/-! ### Synthesized attendee: the pass only sees a chunk's shape -/

/-- The event-independent part of a normalized occurrence. -/
def trShape (tr : Triple) : Nat × Nat × String := (tr.rs, tr.re, tr.ev.summary)

/-- The event-independent part of the loop state. -/
def stShape (st : BuildState) : Nat × List (Nat × Nat × String) × Option String :=
  (st.lo, st.rev.map chunkShape, st.intersect.map Chunk.notes)

theorem gapNotes_congr (o1 o2 : Option Chunk)
    (h : o1.map Chunk.notes = o2.map Chunk.notes) :
    gapNotes o1 = gapNotes o2 := by
  cases o1 with
  | none =>
      cases o2 with
      | none => rfl
      | some c => simp at h
  | some c =>
      cases o2 with
      | none => simp at h
      | some d => simpa [gapNotes] using h

theorem stShape_components {st1 st2 : BuildState}
    (h : stShape st1 = stShape st2) :
    st1.lo = st2.lo ∧ st1.rev.map chunkShape = st2.rev.map chunkShape ∧
      st1.intersect.map Chunk.notes = st2.intersect.map Chunk.notes := by
  simpa [stShape, Prod.ext_iff] using h

theorem stepTriple_shape (st1 st2 : BuildState) (tr1 tr2 : Triple)
    (hst : stShape st1 = stShape st2) (htr : trShape tr1 = trShape tr2) :
    stShape (stepTriple st1 tr1) = stShape (stepTriple st2 tr2) := by
  obtain ⟨hlo, hrev, hint⟩ := stShape_components hst
  obtain ⟨hrs, hre, hsum⟩ : tr1.rs = tr2.rs ∧ tr1.re = tr2.re ∧
      tr1.ev.summary = tr2.ev.summary := by
    simpa [trShape, Prod.ext_iff] using htr
  have hgap : (gapped st1 tr1.rs).map chunkShape
      = (gapped st2 tr2.rs).map chunkShape := by
    unfold gapped
    rw [hlo, hrs]
    by_cases hg : st2.lo < tr2.rs
    · rw [if_pos hg, if_pos hg]
      simp only [List.map_cons]
      rw [hrev]
      congr 1
      simp [chunkShape, hlo, hrs, gapNotes_congr _ _ hint]
    · rw [if_neg hg, if_neg hg]
      exact hrev
  unfold stepTriple
  cases hg1 : gapped st1 tr1.rs with
  | nil =>
      cases hg2 : gapped st2 tr2.rs with
      | nil =>
          simp [placeEvent, stShape, eventChunk, chunkShape, hrs, hre, hsum, hint]
      | cons q qs =>
          rw [hg1, hg2] at hgap
          simp at hgap
  | cons p ps =>
      cases hg2 : gapped st2 tr2.rs with
      | nil =>
          rw [hg1, hg2] at hgap
          simp at hgap
      | cons q qs =>
          rw [hg1, hg2] at hgap
          simp only [List.map_cons, List.cons.injEq] at hgap
          obtain ⟨hpq, hpsqs⟩ := hgap
          obtain ⟨hqs, hqe, hqn⟩ : p.start = q.start ∧ p.«end» = q.«end» ∧
              p.notes = q.notes := by
            simpa [chunkShape, Prod.ext_iff] using hpq
          by_cases hlt : tr1.rs < p.«end»
          · simp only [placeEvent]
            rw [if_pos hlt, if_pos (by rw [← hrs, ← hqe]; exact hlt)]
            simp [stShape, eventChunk, chunkShape, hrs, hre, hsum, hqs, hqn,
              hpsqs]
          · simp only [placeEvent]
            rw [if_neg hlt, if_neg (by rw [← hrs, ← hqe]; exact hlt)]
            simp [stShape, eventChunk, chunkShape, hrs, hre, hsum, hqs, hqe,
              hqn, hpsqs, hint]

theorem foldl_shape (l1 : List Triple) (l2 : List Triple)
    (st1 st2 : BuildState) (hl : l1.map trShape = l2.map trShape)
    (hst : stShape st1 = stShape st2) :
    stShape (l1.foldl stepTriple st1) = stShape (l2.foldl stepTriple st2) := by
  induction l1 generalizing l2 st1 st2 with
  | nil =>
      cases l2 with
      | nil => exact hst
      | cons u us => simp at hl
  | cons t ts ih =>
      cases l2 with
      | nil => simp at hl
      | cons u us =>
          simp only [List.map_cons, List.cons.injEq] at hl
          rw [List.foldl_cons, List.foldl_cons]
          exact ih us _ _ hl.2 (stepTriple_shape _ _ _ _ hst hl.1)

theorem finalize_shape (hi : Nat) (st1 st2 : BuildState)
    (hst : stShape st1 = stShape st2) :
    (finalizeChunks hi st1).map chunkShape
      = (finalizeChunks hi st2).map chunkShape := by
  obtain ⟨hlo, hrev, hint⟩ := stShape_components hst
  unfold finalizeChunks
  rw [hlo]
  by_cases hc : st2.lo < hi
  · rw [if_pos hc, if_pos hc, List.map_reverse, List.map_reverse]
    simp only [List.map_cons]
    rw [hrev]
    congr 2
    simp [chunkShape, hlo, gapNotes_congr _ _ hint]
  · rw [if_neg hc, if_neg hc, List.map_reverse, List.map_reverse, hrev]

theorem Chunkify_shape (date : Nat) (items1 items2 : List Event)
    (hne : items1 = [] ↔ items2 = [])
    (hl : (items1.flatMap eventTriples).map trShape
      = (items2.flatMap eventTriples).map trShape) :
    (Chunkify date items1).map chunkShape
      = (Chunkify date items2).map chunkShape := by
  unfold Chunkify
  by_cases h1 : items1 = []
  · rw [if_pos h1, if_pos (hne.mp h1)]
  · rw [if_neg h1, if_neg fun h2 => h1 (hne.mpr h2)]
    rw [foldl_items_eq, foldl_items_eq]
    exact finalize_shape _ _ _ (foldl_shape _ _ _ _ hl rfl)

theorem eventTriples_synth (s t : Nat) (su : String) :
    (eventTriples (Event.mk (some s) (some t) su [] true)).map trShape =
      (eventTriples (Event.mk (some s) (some t) su
        [Attendee.mk true "accepted"] true)).map trShape := rfl

/-- Claim C8: a timed event with an empty attendee list created by self
is included exactly as if it had one self attendee with an accepted
response — the two inputs produce chunk sequences with identical starts,
ends and notes. -/
theorem C8_synth (date : Nat) (pre post : List Event) (e : Event)
    (s t : Nat) (hs : e.start = some s) (ht : e.«end» = some t)
    (ha : e.attendees = []) (hcr : e.creatorSelf = true) :
    (Chunkify date (pre ++ e :: post)).map chunkShape =
      (Chunkify date (pre ++ Event.mk e.start e.«end» e.summary
        [Attendee.mk true "accepted"] e.creatorSelf :: post)).map chunkShape := by
  apply Chunkify_shape
  · constructor <;> intro h <;> simp at h
  · rw [List.flatMap_append, List.flatMap_append, List.flatMap_cons,
      List.flatMap_cons, List.map_append, List.map_append, List.map_append,
      List.map_append]
    congr 1
    congr 1
    obtain ⟨s0, t0, su, as, cr⟩ := e
    simp only at hs ht ha hcr
    subst hs
    subst ht
    subst ha
    subst hcr
    exact eventTriples_synth s t su

/-- Witness for C8 at a concrete attendee-less self-created event. -/
theorem C8_synth_witness :
    (Chunkify 0 [Event.mk (some 36000) (some 43200) "mine" [] true]).map
        chunkShape =
      (Chunkify 0 [Event.mk (some 36000) (some 43200) "mine"
        [Attendee.mk true "accepted"] true]).map chunkShape :=
  C8_synth 0 [] [] (Event.mk (some 36000) (some 43200) "mine" [] true)
    36000 43200 rfl rfl rfl rfl
